import Mathlib

/-!
# Verification of the droplet image generator (`image_gen.py`)

Shallow embedding of the synthetic-droplet image generator. The core of the
repository is one pure helper `add_droplet_irregularities` and one entry point
`generate_single_droplet` that together turn a contact angle and a random seed
into an 800x900 grayscale image.

Modelling choices:
* pixel intensities and all intermediate arithmetic are exact reals `ℝ`
  (the source computes in float32/float64; the spec's formulas are the
  real-valued idealisation);
* coordinate grids `XX`/`YY` become the integer pixel indices passed as
  arguments `(y x : ℤ)`: `YY y x = y`, `XX y x = x` — comparisons of the
  float-valued grids against integer scalars in the source are exact, so
  integer comparisons are faithful;
* NumPy's globally seeded random generator becomes an explicit implementation
  record `RNG σ` (seed function plus the three primitives the source draws
  from: `randint`, `rand`, `normal`) with explicit state passing; the global
  pre-call generator state is an extra argument `g` that
  `np.random.seed(seed)` discards;
* `cv2.GaussianBlur(img, (3, 3), 0)` is the separable 3x3 convolution with
  the fixed OpenCV kernel [1/4, 1/2, 1/4] (used for ksize 3 when sigma <= 0)
  and BORDER_REFLECT_101 index reflection;
* `np.clip(img, 0, 255).astype(np.uint8)` is clamping followed by
  truncation toward zero (= floor on the clamped nonnegative value).
-/

/-- `IMG_W = 800` (source line 12). -/
def IMG_W : ℕ := 800

/-- `IMG_H = 900` (source line 12). -/
def IMG_H : ℕ := 900

/-- `BACKGROUND = 240` (source line 13). -/
def BACKGROUND : ℝ := 240

/-- `DROPLET_COLOR = 0` (source line 14). -/
def DROPLET_COLOR : ℝ := 0

/-- `RADIUS = 240` (source line 15). -/
def RADIUS : ℝ := 240

/-- `edge_width = 2.0` (source line 96). -/
def edge_width : ℝ := 2

/-- `baseline_y = int(IMG_H * 0.75)` (source line 82); the argument is
positive, so Python's truncation toward zero is the floor. -/
noncomputable def baseline_y : ℤ := Int.floor ((IMG_H : ℝ) * 0.75)

/-- `cx = IMG_W // 2` (source line 87), integer division. -/
def cx : ℕ := IMG_W / 2

/-- `np.radians(theta_deg)` (source line 79). -/
noncomputable def theta_rad (θdeg : ℝ) : ℝ := θdeg * Real.pi / 180

/-- `droplet_height = R * (1 - np.cos(theta))` (source line 86), kept
parametric in the radius `R` for the monotonicity claim. -/
noncomputable def droplet_height (R θdeg : ℝ) : ℝ :=
  R * (1 - Real.cos (theta_rad θdeg))

/-- `cy = baseline_y + (R - droplet_height)` (source line 88) with
`R = RADIUS`. -/
noncomputable def cyOf (θdeg : ℝ) : ℝ :=
  (baseline_y : ℝ) + (RADIUS - droplet_height RADIUS θdeg)

/-- An implementation of the NumPy pseudorandom interface the source draws
from. `σ` is the generator state. `seedFn` models `np.random.seed`;
`randint s lo hi` models `np.random.randint(lo, hi)` (half-open range);
`rand` models `np.random.rand()` (uniform on `[0, 1)`); `normalGrid s μ σd`
models `np.random.normal(μ, σd, shape)` returning a full grid of draws.
The two `Prop` fields record the range guarantees of the NumPy samplers. -/
structure RNG (σ : Type) where
  seedFn : ℤ → σ
  randint : σ → ℤ → ℤ → ℤ × σ
  rand : σ → ℝ × σ
  normalGrid : σ → ℝ → ℝ → (ℤ → ℤ → ℝ) × σ
  randint_mem : ∀ s lo hi, lo < hi →
    lo ≤ (randint s lo hi).1 ∧ (randint s lo hi).1 < hi
  rand_mem : ∀ s, 0 ≤ (rand s).1 ∧ (rand s).1 < 1

/-- `np.arctan2(y, x)` as a real function (source line 43). -/
noncomputable def atan2 (y x : ℝ) : ℝ :=
  if 0 < x then Real.arctan (y / x)
  else if x = 0 then (if 0 < y then Real.pi / 2 else if y < 0 then -(Real.pi / 2) else 0)
  else if 0 ≤ y then Real.arctan (y / x) + Real.pi
  else Real.arctan (y / x) - Real.pi

/-- The exact Euclidean distance field
`np.sqrt((xx - cx) ** 2 + (yy - cy) ** 2)` (source lines 41 and 54). -/
noncomputable def euclid (cxv cyv : ℝ) (y x : ℤ) : ℝ :=
  Real.sqrt (((x : ℝ) - cxv) ^ 2 + ((y : ℝ) - cyv) ^ 2)

/-- Generator state advance of one loop iteration of
`add_droplet_irregularities` (one `randint` draw for the frequency, then two
`rand` draws for amplitude and phase, in source order, lines 48–50). -/
noncomputable def loopStep {σ : Type} (impl : RNG σ) (s : σ) : σ :=
  (impl.rand (impl.rand (impl.randint s 3 15).2).2).2

/-- The sinusoidal term one loop iteration adds to the distortion field
(source line 51): `amp * sin(freq * angle + phase)` with
`freq = randint(3, 15)` drawn from `s`, `amp = rand() * level * R * 0.02`
drawn next, `phase = rand() * 2 * pi` drawn last. -/
noncomputable def loopTerm {σ : Type} (impl : RNG σ) (ang : ℤ → ℤ → ℝ)
    (level R : ℝ) (s : σ) (y x : ℤ) : ℝ :=
  ((impl.rand (impl.randint s 3 15).2).1 * level * R * 0.02) *
    Real.sin (((impl.randint s 3 15).1 : ℝ) * ang y x +
      (impl.rand (impl.rand (impl.randint s 3 15).2).2).1 * (2 * Real.pi))

/-- The loop of `add_droplet_irregularities` (source lines 47–51): each
iteration draws its term from the current state and the remaining iterations
continue from the advanced state; the pair carries the accumulated distortion
field and the final generator state. -/
noncomputable def distortionLoop {σ : Type} (impl : RNG σ) (ang : ℤ → ℤ → ℝ)
    (level R : ℝ) : ℕ → σ → (ℤ → ℤ → ℝ) × σ
  | 0, s => (fun _ _ => 0, s)
  | n + 1, s =>
      (fun y x =>
        (distortionLoop impl ang level R n (loopStep impl s)).1 y x +
          loopTerm impl ang level R s y x,
       (distortionLoop impl ang level R n (loopStep impl s)).2)

/-- Generator state before iteration `i` of the loop, starting from `s`. -/
noncomputable def loopStates {σ : Type} (impl : RNG σ) (s : σ) : ℕ → σ
  | 0 => s
  | n + 1 => loopStep impl (loopStates impl s n)

/-- The frequency drawn at iteration `i` (`np.random.randint(3, 15)`). -/
noncomputable def freqSeq {σ : Type} (impl : RNG σ) (s : σ) (i : ℕ) : ℤ :=
  (impl.randint (loopStates impl s i) 3 15).1

/-- The amplitude drawn at iteration `i`
(`np.random.rand() * level * R * 0.02`). -/
noncomputable def ampSeq {σ : Type} (impl : RNG σ) (s : σ) (level R : ℝ) (i : ℕ) : ℝ :=
  (impl.rand (impl.randint (loopStates impl s i) 3 15).2).1 * level * R * 0.02

/-- The phase drawn at iteration `i` (`np.random.rand() * 2 * np.pi`). -/
noncomputable def phaseSeq {σ : Type} (impl : RNG σ) (s : σ) (i : ℕ) : ℝ :=
  (impl.rand (impl.rand (impl.randint (loopStates impl s i) 3 15).2).2).1 *
    (2 * Real.pi)

/-- `add_droplet_irregularities(xx, yy, cx, cy, R, level)` (source lines
27–60): below the severity threshold it returns the exact Euclidean distance
field and leaves the generator untouched; otherwise it draws
`k = randint(2, 6)` sinusoidal terms over the polar angle
`atan2(yy - cy, xx - cx)` and rescales the distance by the perturbed
boundary radius, `dist / (R + distortion) * R`. -/
noncomputable def add_droplet_irregularities {σ : Type} (impl : RNG σ) (s : σ)
    (cxv cyv R level : ℝ) : (ℤ → ℤ → ℝ) × σ :=
  if level < 0.01 then (fun y x => euclid cxv cyv y x, s)
  else
    (fun y x => euclid cxv cyv y x /
        (R + (distortionLoop impl (fun j i => atan2 ((j : ℝ) - cyv) ((i : ℝ) - cxv))
          level R (impl.randint s 2 6).1.toNat (impl.randint s 2 6).2).1 y x) * R,
     (distortionLoop impl (fun j i => atan2 ((j : ℝ) - cyv) ((i : ℝ) - cxv))
       level R (impl.randint s 2 6).1.toNat (impl.randint s 2 6).2).2)

/-- The distortion field drawn by `add_droplet_irregularities` in its
severity-at-least-0.01 branch: `k = randint(2, 6)` sinusoidal terms over the
polar angle `atan2(yy - cy, xx - cx)`, starting from the post-`k` state. -/
noncomputable def distortionOf {σ : Type} (impl : RNG σ) (s : σ)
    (cxv cyv R level : ℝ) : ℤ → ℤ → ℝ :=
  (distortionLoop impl (fun j i => atan2 ((j : ℝ) - cyv) ((i : ℝ) - cxv))
    level R (impl.randint s 2 6).1.toNat (impl.randint s 2 6).2).1

/-- `np.clip(v, lo, hi)` on finite reals. -/
noncomputable def clip (v lo hi : ℝ) : ℝ := min hi (max lo v)

/-- The soft-edge mask after baseline clipping (source lines 97 and 100):
`mask = clip((R - dist) / edge_width + 0.5, 0, 1)` with `mask[YY > baseline_y] = 0`. -/
noncomputable def maskField (dist : ℤ → ℤ → ℝ) (y x : ℤ) : ℝ :=
  if baseline_y < y then 0
  else clip ((RADIUS - dist y x) / edge_width + 0.5) 0 1

/-- The vertical lighting gradient (source lines 103–104):
`clip(1 - 0.2 * (YY - (cy - R)) / (2 * R), 0.8, 1.0)`. -/
noncomputable def gradientField (cyv : ℝ) (y : ℤ) : ℝ :=
  clip (1 - 0.2 * ((y : ℝ) - (cyv - RADIUS)) / (2 * RADIUS)) 0.8 1

/-- The image after blending and the contact-line override, before sensor
noise (source lines 106–112): `img = BACKGROUND * (1 - mask) + droplet * mask`
with `droplet = DROPLET_COLOR * gradient`, then rows
`baseline_y - 2 ≤ y ≤ baseline_y + 1` forced to `0`. -/
noncomputable def preNoise (dist : ℤ → ℤ → ℝ) (cyv : ℝ) (y x : ℤ) : ℝ :=
  if baseline_y - 2 ≤ y ∧ y ≤ baseline_y + 1 then 0
  else BACKGROUND * (1 - maskField dist y x) +
    (DROPLET_COLOR * gradientField cyv y) * maskField dist y x

/-- OpenCV `BORDER_REFLECT_101` index reflection for one-off out-of-range
indices over `[0, n)`. -/
def refl101 (n : ℕ) (i : ℤ) : ℤ :=
  if i < 0 then -i else if (n : ℤ) ≤ i then 2 * (n : ℤ) - 2 - i else i

/-- `cv2.GaussianBlur(img, (3, 3), 0)` (source line 116): separable 3×3
convolution with OpenCV's fixed kernel `[1/4, 1/2, 1/4]` for aperture 3 and
`sigma ≤ 0`, with reflected borders. -/
noncomputable def gblur (f : ℤ → ℤ → ℝ) (y x : ℤ) : ℝ :=
  (1/4) * ((1/4) * f (refl101 IMG_H (y-1)) (refl101 IMG_W (x-1)) +
           (1/2) * f (refl101 IMG_H (y-1)) (refl101 IMG_W x) +
           (1/4) * f (refl101 IMG_H (y-1)) (refl101 IMG_W (x+1))) +
  (1/2) * ((1/4) * f (refl101 IMG_H y) (refl101 IMG_W (x-1)) +
           (1/2) * f (refl101 IMG_H y) (refl101 IMG_W x) +
           (1/4) * f (refl101 IMG_H y) (refl101 IMG_W (x+1))) +
  (1/4) * ((1/4) * f (refl101 IMG_H (y+1)) (refl101 IMG_W (x-1)) +
           (1/2) * f (refl101 IMG_H (y+1)) (refl101 IMG_W x) +
           (1/4) * f (refl101 IMG_H (y+1)) (refl101 IMG_W (x+1)))

/-- The distance field and generator state produced by the irregularity step
inside `generate_single_droplet` (source lines 91–93): the call
`add_droplet_irregularities(XX, YY, cx, cy, R, level=0.4)` made right after
`np.random.seed(seed)`. -/
noncomputable def irregOf {σ : Type} (impl : RNG σ) (θdeg : ℝ) (seed : ℤ) :
    (ℤ → ℤ → ℝ) × σ :=
  add_droplet_irregularities impl (impl.seedFn seed) (cx : ℝ) (cyOf θdeg) RADIUS 0.4

/-- The per-pixel Gaussian sensor noise grid (source line 115), drawn from
the generator state left by the irregularity step. -/
noncomputable def noiseOf {σ : Type} (impl : RNG σ) (θdeg : ℝ) (seed : ℤ) :
    ℤ → ℤ → ℝ :=
  (impl.normalGrid (irregOf impl θdeg seed).2 0 6).1

/-- The pre-noise image of one generation call. -/
noncomputable def preOf {σ : Type} (impl : RNG σ) (θdeg : ℝ) (seed : ℤ)
    (y x : ℤ) : ℝ :=
  preNoise (irregOf impl θdeg seed).1 (cyOf θdeg) y x

/-- `generate_single_droplet(theta_deg, seed)` (source lines 66–118).
`impl` is the pseudorandom implementation, `g` the state of the global
generator before the call (which `np.random.seed(seed)` replaces). The
output is indexed by `Fin IMG_H → Fin IMG_W` (exactly the 900×800 grid) and
each pixel is `int(clip(blurred, 0, 255))`, truncation toward zero on a
clamped nonnegative value being `Int.floor`. -/
noncomputable def generate_single_droplet {σ : Type} (impl : RNG σ) (g : σ)
    (θdeg : ℝ) (seed : ℤ) : Fin IMG_H → Fin IMG_W → ℤ :=
  fun y x => Int.floor (clip
    (gblur (fun j i => preOf impl θdeg seed j i + noiseOf impl θdeg seed j i)
      ((y : ℕ) : ℤ) ((x : ℕ) : ℤ)) 0 255)

/-- Modelled from the spec's reduced blend for the refinement claim:
the same pipeline with the blend replaced by
`image = background_level * (1 - mask)` and no gradient anywhere. -/
noncomputable def preNoiseNograd (dist : ℤ → ℤ → ℝ) (y x : ℤ) : ℝ :=
  if baseline_y - 2 ≤ y ∧ y ≤ baseline_y + 1 then 0
  else BACKGROUND * (1 - maskField dist y x)

/-- The generator with the gradient-free blend `BACKGROUND * (1 - mask)`,
to be proved equal to `generate_single_droplet`. -/
noncomputable def generate_single_droplet_nograd {σ : Type} (impl : RNG σ)
    (g : σ) (θdeg : ℝ) (seed : ℤ) : Fin IMG_H → Fin IMG_W → ℤ :=
  fun y x => Int.floor (clip
    (gblur (fun j i => preNoiseNograd (irregOf impl θdeg seed).1 j i +
      noiseOf impl θdeg seed j i) ((y : ℕ) : ℤ) ((x : ℕ) : ℤ)) 0 255)

/-- IEEE-754-style extended values, to model the behaviour of the NumPy
float pipeline when the perturbed boundary radius reaches zero: a finite
real, `+inf`, `-inf`, or `nan`. The source suppresses the division warnings
with `np.errstate(divide="ignore", invalid="ignore")` (lines 57–58) and lets
the non-finite values flow into the mask computation. -/
inductive FVal where
  | fin : ℝ → FVal
  | pinf : FVal
  | ninf : FVal
  | nan : FVal

/-- IEEE subtraction on extended values. -/
noncomputable def FVal.sub : FVal → FVal → FVal
  | .fin a, .fin b => .fin (a - b)
  | .fin _, .pinf => .ninf
  | .fin _, .ninf => .pinf
  | .pinf, .fin _ => .pinf
  | .pinf, .ninf => .pinf
  | .pinf, .pinf => .nan
  | .ninf, .fin _ => .ninf
  | .ninf, .pinf => .ninf
  | .ninf, .ninf => .nan
  | _, _ => .nan

/-- IEEE addition on extended values. -/
noncomputable def FVal.add : FVal → FVal → FVal
  | .fin a, .fin b => .fin (a + b)
  | .fin _, .pinf => .pinf
  | .fin _, .ninf => .ninf
  | .pinf, .fin _ => .pinf
  | .pinf, .pinf => .pinf
  | .pinf, .ninf => .nan
  | .ninf, .fin _ => .ninf
  | .ninf, .ninf => .ninf
  | .ninf, .pinf => .nan
  | _, _ => .nan

/-- IEEE multiplication on extended values. -/
noncomputable def FVal.mul : FVal → FVal → FVal
  | .fin a, .fin b => .fin (a * b)
  | .fin a, .pinf => if a = 0 then .nan else if 0 < a then .pinf else .ninf
  | .fin a, .ninf => if a = 0 then .nan else if 0 < a then .ninf else .pinf
  | .pinf, .fin b => if b = 0 then .nan else if 0 < b then .pinf else .ninf
  | .ninf, .fin b => if b = 0 then .nan else if 0 < b then .ninf else .pinf
  | .pinf, .pinf => .pinf
  | .pinf, .ninf => .ninf
  | .ninf, .pinf => .ninf
  | .ninf, .ninf => .pinf
  | _, _ => .nan

/-- IEEE division on extended values; division of a nonzero finite value by
(positive) zero yields a signed infinity, `0 / 0` yields `nan`. -/
noncomputable def FVal.div : FVal → FVal → FVal
  | .fin a, .fin b =>
      if b = 0 then (if a = 0 then .nan else if 0 < a then .pinf else .ninf)
      else .fin (a / b)
  | .fin _, .pinf => .fin 0
  | .fin _, .ninf => .fin 0
  | .pinf, .fin b => if 0 ≤ b then .pinf else .ninf
  | .ninf, .fin b => if 0 ≤ b then .ninf else .pinf
  | _, _ => .nan

/-- `np.clip` on extended values: `maximum` then `minimum`; `+inf` clips to
`hi`, `-inf` clips to `lo`, `nan` propagates. -/
noncomputable def fclip (v : FVal) (lo hi : ℝ) : FVal :=
  match v with
  | .fin a => .fin (min hi (max lo a))
  | .pinf => .fin hi
  | .ninf => .fin lo
  | .nan => .nan

/-- The rescaling `dist = dist / R_distorted * R` (source line 58) on
extended values. -/
noncomputable def rescaleF (d Rp R : FVal) : FVal := (d.div Rp).mul R

/-- The soft-edge mask `clip((RADIUS - dist) / edge_width + 0.5, 0, 1)`
(source line 97) on extended values. -/
noncomputable def maskF (dist : FVal) : FVal :=
  fclip ((((FVal.fin RADIUS).sub dist).div (FVal.fin edge_width)).add
    (FVal.fin 0.5)) 0 1

/-- The blend `BACKGROUND * (1 - mask) + droplet * mask` (source line 108)
on extended values. -/
noncomputable def blendF (mask droplet : FVal) : FVal :=
  ((FVal.fin BACKGROUND).mul ((FVal.fin 1).sub mask)).add (droplet.mul mask)

/-- A concrete pseudorandom implementation used by the witnesses: `randint`
returns the lower bound, `rand` returns `0`, `normal` returns the all-zero
grid. -/
noncomputable def toyRNG : RNG Unit where
  seedFn := fun _ => ()
  randint := fun _ lo _ => (lo, ())
  rand := fun _ => (0, ())
  normalGrid := fun _ _ _ => (fun _ _ => 0, ())
  randint_mem := fun _ lo hi h => ⟨le_refl lo, h⟩
  rand_mem := fun _ => ⟨le_refl 0, by norm_num⟩

theorem baseline_y_eq : baseline_y = 675 := by
  have h : ((IMG_H : ℕ) : ℝ) * 0.75 = ((675 : ℤ) : ℝ) := by
    norm_num [IMG_H]
  rw [baseline_y, h, Int.floor_intCast]

/-- **C4.** Geometry formulas: with `image_height = 900`, `image_width = 800`
and `radius = 240`, the computed geometry satisfies
`baseline_y = floor(900 * 0.75) = 675`, `cx = 800 / 2 = 400`, and
`cy = baseline_y + (R - R * (1 - cos(θ·π/180)))` for every finite angle;
in particular `cy 90 = 675` and `cy 0 = 915`. -/
theorem geometry_formulas :
    baseline_y = 675 ∧ cx = 400 ∧
    (∀ θ : ℝ, cyOf θ =
      (baseline_y : ℝ) + (RADIUS - RADIUS * (1 - Real.cos (θ * Real.pi / 180)))) ∧
    cyOf 90 = 675 ∧ cyOf 0 = 915 := by
  refine ⟨baseline_y_eq, by norm_num [cx, IMG_W], fun θ => rfl, ?_, ?_⟩
  · have h90 : (90 : ℝ) * Real.pi / 180 = Real.pi / 2 := by ring
    simp only [cyOf, droplet_height, theta_rad, baseline_y_eq, h90,
      Real.cos_pi_div_two, RADIUS]
    norm_num
  · simp only [cyOf, droplet_height, theta_rad, baseline_y_eq, RADIUS]
    norm_num

/-- **C7.** Monotonic cap height: for fixed radius `R > 0`, the cap height
`droplet_height R θ = R(1 - cos(θ·π/180))` is strictly increasing on
`θ ∈ [0, 180]` degrees, with value `0` at `0°`, `R` at `90°` and `2R`
at `180°`. -/
theorem droplet_height_strictMonoOn (R : ℝ) (hR : 0 < R) :
    StrictMonoOn (droplet_height R) (Set.Icc (0 : ℝ) 180) ∧
    droplet_height R 0 = 0 ∧ droplet_height R 90 = R ∧
    droplet_height R 180 = 2 * R := by
  have hpi : (0 : ℝ) < Real.pi / 180 := by positivity
  refine ⟨?_, ?_, ?_, ?_⟩
  · intro a ha b hb hab
    have hmem : ∀ c : ℝ, c ∈ Set.Icc (0 : ℝ) 180 →
        theta_rad c ∈ Set.Icc (0 : ℝ) Real.pi := by
      intro c hc
      constructor
      · have := mul_nonneg hc.1 hpi.le
        simpa [theta_rad, mul_div_assoc] using this
      · have h1 : c * (Real.pi / 180) ≤ 180 * (Real.pi / 180) :=
          mul_le_mul_of_nonneg_right hc.2 hpi.le
        have h2 : (180 : ℝ) * (Real.pi / 180) = Real.pi := by ring
        simpa [theta_rad, mul_div_assoc, h2] using h1
    have hlt : theta_rad a < theta_rad b := by
      have := mul_lt_mul_of_pos_right hab hpi
      simpa [theta_rad, mul_div_assoc] using this
    have hcos : Real.cos (theta_rad b) < Real.cos (theta_rad a) :=
      Real.strictAntiOn_cos (hmem a ha) (hmem b hb) hlt
    have : R * (1 - Real.cos (theta_rad a)) < R * (1 - Real.cos (theta_rad b)) := by
      apply mul_lt_mul_of_pos_left _ hR
      linarith
    simpa [droplet_height] using this
  · simp [droplet_height, theta_rad]
  · have h90 : (90 : ℝ) * Real.pi / 180 = Real.pi / 2 := by ring
    simp [droplet_height, theta_rad, h90, Real.cos_pi_div_two]
  · have h180 : (180 : ℝ) * Real.pi / 180 = Real.pi := by ring
    simp [droplet_height, theta_rad, h180, Real.cos_pi]
    ring

/-- Witness for C7 at the concrete radius `RADIUS = 240` used by the code. -/
theorem droplet_height_strictMonoOn_witness :
    0 < (240 : ℝ) ∧
    (StrictMonoOn (droplet_height 240) (Set.Icc (0 : ℝ) 180) ∧
      droplet_height 240 0 = 0 ∧ droplet_height 240 90 = 240 ∧
      droplet_height 240 180 = 2 * 240) :=
  ⟨by norm_num, droplet_height_strictMonoOn 240 (by norm_num)⟩

/-- **C1.** Determinism: for every contact angle and seed, two calls of
`generate_single_droplet` under the same pseudorandom implementation but
arbitrary (and possibly different) prior global generator states produce
identical output grids — `np.random.seed(seed)` makes the seed the sole
source of nondeterminism. -/
theorem generate_single_droplet_deterministic (σ : Type) (impl : RNG σ)
    (g1 g2 : σ) (θ : ℝ) (seed : ℤ) :
    generate_single_droplet impl g1 θ seed =
      generate_single_droplet impl g2 θ seed := rfl

/-- **C5.** Low-severity no-op: for every center, radius and severity level
strictly below 0.01, `add_droplet_irregularities` returns exactly the
Euclidean distance field from the center and the generator state unchanged
(no random draws consumed). -/
theorem irregularities_noop_below_threshold (σ : Type) (impl : RNG σ) (s : σ)
    (cxv cyv R level : ℝ) (h : level < 0.01) :
    add_droplet_irregularities impl s cxv cyv R level =
      (fun y x => euclid cxv cyv y x, s) := by
  unfold add_droplet_irregularities
  rw [if_pos h]

/-- Witness for C5 at severity 0 with the concrete implementation `toyRNG`. -/
theorem irregularities_noop_below_threshold_witness :
    add_droplet_irregularities toyRNG () 400 675 240 0 =
      (fun y x => euclid 400 675 y x, ()) :=
  irregularities_noop_below_threshold Unit toyRNG () 400 675 240 0 (by norm_num)

theorem clip_mem_Icc (v lo hi : ℝ) (h : lo ≤ hi) :
    lo ≤ clip v lo hi ∧ clip v lo hi ≤ hi := by
  unfold clip
  exact ⟨le_min h (le_max_left lo v), min_le_left hi _⟩

/-- **C8.** Shape and format invariant: for every pseudorandom
implementation, prior generator state, finite contact angle and integer
seed, the output of `generate_single_droplet` is a grid indexed exactly by
`Fin IMG_H × Fin IMG_W` with `IMG_W = 800`, `IMG_H = 900`, and every pixel
value lies in `[0, 255]` (the 8-bit unsigned range). -/
theorem generate_output_shape_range :
    IMG_W = 800 ∧ IMG_H = 900 ∧
    ∀ (σ : Type) (impl : RNG σ) (g : σ) (θ : ℝ) (seed : ℤ)
      (y : Fin IMG_H) (x : Fin IMG_W),
      0 ≤ generate_single_droplet impl g θ seed y x ∧
      generate_single_droplet impl g θ seed y x ≤ 255 := by
  refine ⟨rfl, rfl, ?_⟩
  intro σ impl g θ seed y x
  unfold generate_single_droplet
  have h := clip_mem_Icc
    (gblur (fun j i => preOf impl θ seed j i + noiseOf impl θ seed j i)
      ((y : ℕ) : ℤ) ((x : ℕ) : ℤ)) 0 255 (by norm_num)
  constructor
  · exact Int.le_floor.mpr (by exact_mod_cast h.1)
  · have h2 := Int.floor_le_floor (α := ℝ)
      (h.2.trans_eq (by norm_num : (255 : ℝ) = ((255 : ℤ) : ℝ)))
    simpa using h2

theorem preNoise_eq_nograd (dist : ℤ → ℤ → ℝ) (cyv : ℝ) (y x : ℤ) :
    preNoise dist cyv y x = preNoiseNograd dist y x := by
  unfold preNoise preNoiseNograd DROPLET_COLOR
  split
  · rfl
  · simp

/-- **C10.** `DROPLET_COLOR = 0`, so the shaded droplet field
`DROPLET_COLOR * gradient` is identically zero, the blend reduces to
`BACKGROUND * (1 - mask)`, and the lighting gradient has no effect on the
returned image: `generate_single_droplet` coincides with the gradient-free
pipeline for every implementation, state, angle and seed. -/
theorem gradient_has_no_effect :
    DROPLET_COLOR = 0 ∧
    (∀ (cyv : ℝ) (y : ℤ), DROPLET_COLOR * gradientField cyv y = 0) ∧
    ∀ (σ : Type) (impl : RNG σ) (g : σ) (θ : ℝ) (seed : ℤ),
      generate_single_droplet impl g θ seed =
        generate_single_droplet_nograd impl g θ seed := by
  refine ⟨rfl, fun cyv y => by simp [DROPLET_COLOR], ?_⟩
  intro σ impl g θ seed
  funext y x
  unfold generate_single_droplet generate_single_droplet_nograd
  have hfun : (fun j i => preOf impl θ seed j i + noiseOf impl θ seed j i) =
      fun j i => preNoiseNograd (irregOf impl θ seed).1 j i +
        noiseOf impl θ seed j i := by
    funext j i
    rw [show preOf impl θ seed j i =
      preNoise (irregOf impl θ seed).1 (cyOf θ) j i from rfl,
      preNoise_eq_nograd]
  rw [hfun]

theorem loopStates_step (σ : Type) (impl : RNG σ) (s : σ) :
    ∀ n : ℕ, loopStates impl (loopStep impl s) n = loopStates impl s (n + 1) := by
  intro n
  induction n with
  | zero => rfl
  | succ n ih => simp only [loopStates, ih]

theorem freqSeq_step (σ : Type) (impl : RNG σ) (s : σ) (i : ℕ) :
    freqSeq impl (loopStep impl s) i = freqSeq impl s (i + 1) := by
  unfold freqSeq
  rw [loopStates_step]

theorem ampSeq_step (σ : Type) (impl : RNG σ) (s : σ) (level R : ℝ) (i : ℕ) :
    ampSeq impl (loopStep impl s) level R i = ampSeq impl s level R (i + 1) := by
  unfold ampSeq
  rw [loopStates_step]

theorem phaseSeq_step (σ : Type) (impl : RNG σ) (s : σ) (i : ℕ) :
    phaseSeq impl (loopStep impl s) i = phaseSeq impl s (i + 1) := by
  unfold phaseSeq
  rw [loopStates_step]

theorem loopTerm_eq_seq (σ : Type) (impl : RNG σ) (ang : ℤ → ℤ → ℝ)
    (level R : ℝ) (s : σ) (y x : ℤ) :
    loopTerm impl ang level R s y x =
      ampSeq impl s level R 0 *
        Real.sin ((freqSeq impl s 0 : ℝ) * ang y x + phaseSeq impl s 0) := rfl

/-- The distortion loop is the sum of the drawn sinusoidal terms, and its
final state is the `n`-times-advanced one. -/
theorem distortionLoop_eq (σ : Type) (impl : RNG σ) (ang : ℤ → ℤ → ℝ)
    (level R : ℝ) :
    ∀ (n : ℕ) (s : σ),
      distortionLoop impl ang level R n s =
        (fun y x => ∑ i ∈ Finset.range n,
            ampSeq impl s level R i *
              Real.sin ((freqSeq impl s i : ℝ) * ang y x + phaseSeq impl s i),
          loopStates impl s n) := by
  intro n
  induction n with
  | zero =>
      intro s
      simp only [distortionLoop, loopStates, Finset.range_zero, Finset.sum_empty]
  | succ n ih =>
      intro s
      refine Prod.ext ?_ ?_
      · funext y x
        show (distortionLoop impl ang level R n (loopStep impl s)).1 y x +
            loopTerm impl ang level R s y x = _
        rw [ih (loopStep impl s)]
        simp only [ampSeq_step, freqSeq_step, phaseSeq_step, loopTerm_eq_seq]
        rw [Finset.sum_range_succ']
      · show (distortionLoop impl ang level R n (loopStep impl s)).2 = _
        rw [ih (loopStep impl s)]
        show loopStates impl (loopStep impl s) n = _
        rw [loopStates_step]

/-- Each accumulated distortion field is bounded by the number of terms
times the maximal amplitude `level * R * 0.02`. -/
theorem distortionLoop_abs_le (σ : Type) (impl : RNG σ) (ang : ℤ → ℤ → ℝ)
    (level R : ℝ) (hl : 0 ≤ level) (hR : 0 ≤ R) :
    ∀ (n : ℕ) (s : σ) (y x : ℤ),
      |(distortionLoop impl ang level R n s).1 y x| ≤
        (n : ℝ) * (level * R * 0.02) := by
  have hc : (0 : ℝ) ≤ level * R * 0.02 :=
    mul_nonneg (mul_nonneg hl hR) (by norm_num)
  intro n
  induction n with
  | zero => intro s y x; simp [distortionLoop]
  | succ n ih =>
      intro s y x
      have h1 : (distortionLoop impl ang level R (n + 1) s).1 y x =
          (distortionLoop impl ang level R n (loopStep impl s)).1 y x +
            loopTerm impl ang level R s y x := rfl
      have h2 := ih (loopStep impl s) y x
      have hu := impl.rand_mem (impl.randint s 3 15).2
      have hterm : |loopTerm impl ang level R s y x| ≤ level * R * 0.02 := by
        unfold loopTerm
        rw [abs_mul]
        have hamp : |(impl.rand (impl.randint s 3 15).2).1 * level * R * 0.02| ≤
            level * R * 0.02 := by
          rw [abs_of_nonneg
            (mul_nonneg (mul_nonneg (mul_nonneg hu.1 hl) hR) (by norm_num))]
          nlinarith [hu.1, hu.2]
        have hsin : |Real.sin (((impl.randint s 3 15).1 : ℝ) * ang y x +
            (impl.rand (impl.rand (impl.randint s 3 15).2).2).1 * (2 * Real.pi))| ≤ 1 :=
          abs_le.mpr ⟨Real.neg_one_le_sin _, Real.sin_le_one _⟩
        calc |(impl.rand (impl.randint s 3 15).2).1 * level * R * 0.02| *
              |Real.sin (((impl.randint s 3 15).1 : ℝ) * ang y x +
                (impl.rand (impl.rand (impl.randint s 3 15).2).2).1 * (2 * Real.pi))| ≤
            (level * R * 0.02) * 1 :=
              mul_le_mul hamp hsin (abs_nonneg _) hc
          _ = level * R * 0.02 := mul_one _
      rw [h1]
      calc |(distortionLoop impl ang level R n (loopStep impl s)).1 y x +
            loopTerm impl ang level R s y x| ≤
          |(distortionLoop impl ang level R n (loopStep impl s)).1 y x| +
            |loopTerm impl ang level R s y x| := abs_add _ _
        _ ≤ (n : ℝ) * (level * R * 0.02) + (level * R * 0.02) :=
            add_le_add h2 hterm
        _ = ((n + 1 : ℕ) : ℝ) * (level * R * 0.02) := by push_cast; ring

/-- **C6.** Perturbation sampling and rescaling: when the severity is at
least 0.01, `add_droplet_irregularities` draws a term count `k` uniformly in
`[2, 5]` (via `randint(2, 6)`); each term's frequency (via `randint(3, 15)`)
lies in `[3, 14]`, its amplitude `rand() * level * R * 0.02` lies in
`[0, level * R * 0.02]`, its phase `rand() * 2π` lies in `[0, 2π)`; and the
returned field is `d / (R + distortion) * R` where `distortion` accumulates
`amp * sin(freq * φ + phase)` over the polar angle
`φ = atan2(y - cy, x - cx)` and `d` is the Euclidean distance. -/
theorem irregularities_draw_structure (σ : Type) (impl : RNG σ) (s : σ)
    (cxv cyv R level : ℝ) (hlev : ¬ level < 0.01) (hl0 : 0 ≤ level)
    (hR : 0 ≤ R) :
    2 ≤ (impl.randint s 2 6).1 ∧ (impl.randint s 2 6).1 ≤ 5 ∧
    (∀ i : ℕ,
      3 ≤ freqSeq impl (impl.randint s 2 6).2 i ∧
      freqSeq impl (impl.randint s 2 6).2 i ≤ 14 ∧
      0 ≤ ampSeq impl (impl.randint s 2 6).2 level R i ∧
      ampSeq impl (impl.randint s 2 6).2 level R i ≤ level * R * 0.02 ∧
      0 ≤ phaseSeq impl (impl.randint s 2 6).2 i ∧
      phaseSeq impl (impl.randint s 2 6).2 i < 2 * Real.pi) ∧
    (add_droplet_irregularities impl s cxv cyv R level).1 = fun y x =>
      euclid cxv cyv y x /
        (R + ∑ i ∈ Finset.range (impl.randint s 2 6).1.toNat,
          ampSeq impl (impl.randint s 2 6).2 level R i *
            Real.sin ((freqSeq impl (impl.randint s 2 6).2 i : ℝ) *
              atan2 ((y : ℝ) - cyv) ((x : ℝ) - cxv) +
              phaseSeq impl (impl.randint s 2 6).2 i)) * R := by
  have hk := impl.randint_mem s 2 6 (by norm_num)
  refine ⟨hk.1, by omega, fun i => ?_, ?_⟩
  · have hf := impl.randint_mem (loopStates impl (impl.randint s 2 6).2 i) 3 15
      (by norm_num)
    have hu := impl.rand_mem
      (impl.randint (loopStates impl (impl.randint s 2 6).2 i) 3 15).2
    have hp := impl.rand_mem
      (impl.rand (impl.randint (loopStates impl (impl.randint s 2 6).2 i) 3 15).2).2
    have hpi : (0 : ℝ) < 2 * Real.pi := by positivity
    refine ⟨hf.1, by unfold freqSeq; omega, ?_, ?_, ?_, ?_⟩
    · unfold ampSeq
      exact mul_nonneg (mul_nonneg (mul_nonneg hu.1 hl0) hR) (by norm_num)
    · unfold ampSeq
      nlinarith [hu.1, hu.2, mul_nonneg hl0 hR]
    · unfold phaseSeq
      exact mul_nonneg hp.1 hpi.le
    · unfold phaseSeq
      nlinarith [hp.1, hp.2]
  · unfold add_droplet_irregularities
    rw [if_neg hlev]
    show (fun y x => euclid cxv cyv y x / (R + _) * R) = _
    funext y x
    rw [distortionLoop_eq]

/-- Witness for C6 with the concrete implementation `toyRNG` at the
severity 0.4 and radius 240 used by `generate_single_droplet`. -/
theorem irregularities_draw_structure_witness :
    ¬ (0.4 : ℝ) < 0.01 ∧ (0 : ℝ) ≤ 0.4 ∧ (0 : ℝ) ≤ 240 ∧
    (2 ≤ (toyRNG.randint () 2 6).1 ∧ (toyRNG.randint () 2 6).1 ≤ 5 ∧
    (∀ i : ℕ,
      3 ≤ freqSeq toyRNG (toyRNG.randint () 2 6).2 i ∧
      freqSeq toyRNG (toyRNG.randint () 2 6).2 i ≤ 14 ∧
      0 ≤ ampSeq toyRNG (toyRNG.randint () 2 6).2 0.4 240 i ∧
      ampSeq toyRNG (toyRNG.randint () 2 6).2 0.4 240 i ≤ 0.4 * 240 * 0.02 ∧
      0 ≤ phaseSeq toyRNG (toyRNG.randint () 2 6).2 i ∧
      phaseSeq toyRNG (toyRNG.randint () 2 6).2 i < 2 * Real.pi) ∧
    (add_droplet_irregularities toyRNG () 400 675 240 0.4).1 = fun y x =>
      euclid 400 675 y x /
        (240 + ∑ i ∈ Finset.range (toyRNG.randint () 2 6).1.toNat,
          ampSeq toyRNG (toyRNG.randint () 2 6).2 0.4 240 i *
            Real.sin ((freqSeq toyRNG (toyRNG.randint () 2 6).2 i : ℝ) *
              atan2 ((y : ℝ) - 675) ((x : ℝ) - 400) +
              phaseSeq toyRNG (toyRNG.randint () 2 6).2 i)) * 240) :=
  ⟨by norm_num, by norm_num, by norm_num,
    irregularities_draw_structure Unit toyRNG () 400 675 240 0.4
      (by norm_num) (by norm_num) (by norm_num)⟩

/-- **C9.** For every severity level in `[0, 1]` and radius `R > 0`, the
accumulated distortion is bounded in absolute value by
`5 * level * 0.02 * R = 0.1 * level * R` at every pixel, so the perturbed
boundary radius `R + distortion` is at least `0.9 * R > 0` everywhere: the
rescaling never divides by zero or a negative value, the returned distance
field is nonnegative at every pixel, and in the perturbing branch it is the
genuine finite quotient `d / (R + distortion) * R`. This covers the fixed
severity 0.4 used by `generate_single_droplet`. -/
theorem distortion_bounded_denominator_positive (σ : Type) (impl : RNG σ)
    (s : σ) (cxv cyv R level : ℝ) (hl0 : 0 ≤ level) (hl1 : level ≤ 1)
    (hR : 0 < R) :
    (∀ y x : ℤ,
      |distortionOf impl s cxv cyv R level y x| ≤ 0.1 * level * R ∧
      0.9 * R ≤ R + distortionOf impl s cxv cyv R level y x ∧
      0 < R + distortionOf impl s cxv cyv R level y x) ∧
    (∀ y x : ℤ, 0 ≤ (add_droplet_irregularities impl s cxv cyv R level).1 y x) ∧
    (¬ level < 0.01 →
      (add_droplet_irregularities impl s cxv cyv R level).1 = fun y x =>
        euclid cxv cyv y x / (R + distortionOf impl s cxv cyv R level y x) * R) := by
  have hk := impl.randint_mem s 2 6 (by norm_num)
  have hk5 : ((impl.randint s 2 6).1.toNat : ℝ) ≤ 5 := by
    have : (impl.randint s 2 6).1.toNat ≤ 5 := by omega
    exact_mod_cast this
  have hc : (0 : ℝ) ≤ level * R * 0.02 :=
    mul_nonneg (mul_nonneg hl0 hR.le) (by norm_num)
  have hbound : ∀ y x : ℤ,
      |distortionOf impl s cxv cyv R level y x| ≤ 0.1 * level * R := by
    intro y x
    have h1 := distortionLoop_abs_le σ impl
      (fun j i => atan2 ((j : ℝ) - cyv) ((i : ℝ) - cxv)) level R hl0 hR.le
      (impl.randint s 2 6).1.toNat (impl.randint s 2 6).2 y x
    have h2 : ((impl.randint s 2 6).1.toNat : ℝ) * (level * R * 0.02) ≤
        5 * (level * R * 0.02) := mul_le_mul_of_nonneg_right hk5 hc
    unfold distortionOf
    nlinarith [h1, h2]
  have hden : ∀ y x : ℤ,
      0.9 * R ≤ R + distortionOf impl s cxv cyv R level y x ∧
      0 < R + distortionOf impl s cxv cyv R level y x := by
    intro y x
    have h1 := hbound y x
    have h2 := abs_le.mp h1
    constructor
    · nlinarith [h2.1, hl1, hR.le]
    · nlinarith [h2.1, hl1, hR]
  refine ⟨fun y x => ⟨hbound y x, hden y x⟩, ?_, ?_⟩
  · intro y x
    unfold add_droplet_irregularities
    split
    · exact Real.sqrt_nonneg _
    · have h3 := (hden y x).2
      unfold distortionOf at h3
      exact mul_nonneg (div_nonneg (Real.sqrt_nonneg _) h3.le) hR.le
  · intro hlev
    unfold add_droplet_irregularities distortionOf
    rw [if_neg hlev]

/-- Witness for C9 with `toyRNG` at the code's severity 0.4 and radius 240,
evaluated at the pixel `(0, 0)`. -/
theorem distortion_bounded_denominator_positive_witness :
    (0 : ℝ) ≤ 0.4 ∧ (0.4 : ℝ) ≤ 1 ∧ (0 : ℝ) < 240 ∧
    (|distortionOf toyRNG () 400 675 240 0.4 0 0| ≤ 0.1 * 0.4 * 240 ∧
      0.9 * 240 ≤ 240 + distortionOf toyRNG () 400 675 240 0.4 0 0 ∧
      0 < 240 + distortionOf toyRNG () 400 675 240 0.4 0 0) ∧
    0 ≤ (add_droplet_irregularities toyRNG () 400 675 240 0.4).1 0 0 := by
  have h := distortion_bounded_denominator_positive Unit toyRNG () 400 675 240 0.4
    (by norm_num) (by norm_num) (by norm_num)
  exact ⟨by norm_num, by norm_num, by norm_num, h.1 0 0, h.2.1 0 0⟩

/-- **C2 (amended).** Baseline and contact-line pixel values in the image as
composited, i.e. right after the contact-line override and before the sensor
noise and blur stage: for every distance field and vertical center (hence
regardless of the mask and gradient values computed upstream), every pixel
in the contact band `baseline_y - 2 ≤ y ≤ baseline_y + 1` is exactly 0, and
every pixel at row strictly greater than `baseline_y` outside that band is
exactly `BACKGROUND = 240`. -/
theorem preNoise_baseline_and_band (dist : ℤ → ℤ → ℝ) (cyv : ℝ) (y x : ℤ) :
    (baseline_y - 2 ≤ y ∧ y ≤ baseline_y + 1 → preNoise dist cyv y x = 0) ∧
    (baseline_y < y → ¬(baseline_y - 2 ≤ y ∧ y ≤ baseline_y + 1) →
      preNoise dist cyv y x = BACKGROUND) := by
  constructor
  · intro hband
    unfold preNoise
    rw [if_pos hband]
  · intro hy hnband
    unfold preNoise maskField
    rw [if_neg hnband, if_pos hy]
    simp [DROPLET_COLOR]

/-- Witness for C2 (amended) at rows 675 (in the band) and 677 (below the
baseline, outside the band). -/
theorem preNoise_baseline_and_band_witness :
    preNoise (fun _ _ => 0) 675 675 0 = 0 ∧
    preNoise (fun _ _ => 0) 675 677 0 = BACKGROUND := by
  constructor
  · exact (preNoise_baseline_and_band (fun _ _ => 0) 675 675 0).1
      (by rw [baseline_y_eq]; omega)
  · exact (preNoise_baseline_and_band (fun _ _ => 0) 675 677 0).2
      (by rw [baseline_y_eq]; omega) (by rw [baseline_y_eq]; omega)

/-- **C2 (counterexample).** The claim as stated — about the *returned*
image — is false: with the zero-noise implementation `toyRNG`, the returned
pixel at row 677 and column 0 (strictly below `baseline_y = 675` and outside
the contact band `[673, 676]`) is 180, not the background 240, because the
3×3 Gaussian blur mixes in the black contact-line row 676. -/
theorem final_image_below_baseline_ne_background :
    (baseline_y < 677 ∧ ¬(baseline_y - 2 ≤ 677 ∧ 677 ≤ baseline_y + 1)) ∧
    generate_single_droplet toyRNG () 60 0
      ⟨677, by norm_num [IMG_H]⟩ ⟨0, by norm_num [IMG_W]⟩ ≠ 240 := by
  refine ⟨⟨by rw [baseline_y_eq]; omega, by rw [baseline_y_eq]; omega⟩, ?_⟩
  have hpre676 : ∀ c : ℤ, preOf toyRNG 60 0 676 c = 0 := by
    intro c
    show preNoise _ _ 676 c = 0
    unfold preNoise
    rw [if_pos (by rw [baseline_y_eq]; omega)]
  have hpre677 : ∀ c : ℤ, preOf toyRNG 60 0 677 c = 240 := by
    intro c
    show preNoise _ _ 677 c = 240
    unfold preNoise maskField
    rw [if_neg (by rw [baseline_y_eq]; omega), if_pos (by rw [baseline_y_eq]; omega)]
    norm_num [DROPLET_COLOR, BACKGROUND]
  have hpre678 : ∀ c : ℤ, preOf toyRNG 60 0 678 c = 240 := by
    intro c
    show preNoise _ _ 678 c = 240
    unfold preNoise maskField
    rw [if_neg (by rw [baseline_y_eq]; omega), if_pos (by rw [baseline_y_eq]; omega)]
    norm_num [DROPLET_COLOR, BACKGROUND]
  have hnoise : ∀ j i : ℤ, noiseOf toyRNG 60 0 j i = 0 := fun _ _ => rfl
  have hg : gblur (fun j i => preOf toyRNG 60 0 j i + noiseOf toyRNG 60 0 j i)
      677 0 = 180 := by
    unfold gblur
    norm_num [refl101, IMG_H, IMG_W, hnoise, hpre676, hpre677, hpre678]
  have hval : generate_single_droplet toyRNG () 60 0
      ⟨677, by norm_num [IMG_H]⟩ ⟨0, by norm_num [IMG_W]⟩ = 180 := by
    show Int.floor (clip (gblur
      (fun j i => preOf toyRNG 60 0 j i + noiseOf toyRNG 60 0 j i)
      ((677 : ℕ) : ℤ) ((0 : ℕ) : ℤ)) 0 255) = 180
    have hcast : ((677 : ℕ) : ℤ) = (677 : ℤ) ∧ ((0 : ℕ) : ℤ) = (0 : ℤ) := by
      norm_num
    rw [hcast.1, hcast.2, hg]
    rw [show clip 180 0 255 = ((180 : ℤ) : ℝ) by norm_num [clip]]
    exact Int.floor_intCast 180
  rw [hval]
  decide

/-- **C3.** Non-finite tolerance, in the extended-value model of the NumPy
float pipeline (all operations total, so nothing raises): when the perturbed
boundary radius is exactly zero at a pixel with positive distance `dv`, the
rescaling `d / R_distorted * R` produces `+inf`; that non-finite value
propagates into the mask, whose clamping maps it to 0, so the blend renders
the pixel as `BACKGROUND`; and when the perturbed radius is a near-zero
positive `e` making the rescaled distance reach `RADIUS + 1`, the clamped
mask is likewise 0. -/
theorem rescale_nonfinite_tolerated (dv : ℝ) (hd : 0 < dv) :
    rescaleF (.fin dv) (.fin 0) (.fin RADIUS) = .pinf ∧
    maskF .pinf = .fin 0 ∧
    (∀ grad : ℝ, blendF (.fin 0) (.fin (DROPLET_COLOR * grad)) = .fin BACKGROUND) ∧
    (∀ e : ℝ, 0 < e → RADIUS + 1 ≤ dv / e * RADIUS →
      maskF (rescaleF (.fin dv) (.fin e) (.fin RADIUS)) = .fin 0) := by
  refine ⟨?_, ?_, ?_, ?_⟩
  · unfold rescaleF
    rw [show FVal.div (.fin dv) (.fin 0) = .pinf by
      simp only [FVal.div]
      rw [if_pos trivial, if_neg hd.ne', if_pos hd]]
    simp only [FVal.mul]
    norm_num [RADIUS]
  · unfold maskF FVal.sub FVal.div FVal.add fclip edge_width
    norm_num
  · intro grad
    unfold blendF FVal.sub FVal.mul FVal.add BACKGROUND DROPLET_COLOR
    norm_num
  · intro e he hbig
    have hre : rescaleF (.fin dv) (.fin e) (.fin RADIUS) =
        .fin (dv / e * RADIUS) := by
      unfold rescaleF
      rw [show FVal.div (.fin dv) (.fin e) = .fin (dv / e) by
        simp only [FVal.div]
        rw [if_neg he.ne']]
      simp only [FVal.mul]
    rw [hre]
    unfold maskF
    simp only [FVal.sub, edge_width, FVal.div, FVal.add, fclip]
    rw [if_neg (by norm_num : (2 : ℝ) ≠ 0)]
    have hv : (RADIUS - dv / e * RADIUS) / 2 + 0.5 ≤ 0 := by
      unfold RADIUS at hbig ⊢
      linarith
    show FVal.fin (min 1 (max 0 ((RADIUS - dv / e * RADIUS) / 2 + 0.5))) = FVal.fin 0
    rw [max_eq_left hv, min_eq_right (by norm_num)]

/-- Witness for C3 at the concrete distance `dv = 1` and near-zero perturbed
radius `e = 1/2`. -/
theorem rescale_nonfinite_tolerated_witness :
    (0 : ℝ) < 1 ∧
    rescaleF (.fin 1) (.fin 0) (.fin RADIUS) = .pinf ∧
    maskF .pinf = .fin 0 ∧
    blendF (.fin 0) (.fin (DROPLET_COLOR * 1)) = .fin BACKGROUND ∧
    ((0 : ℝ) < 1/2 ∧ RADIUS + 1 ≤ (1 : ℝ) / (1/2) * RADIUS ∧
      maskF (rescaleF (.fin 1) (.fin (1/2)) (.fin RADIUS)) = .fin 0) := by
  have h := rescale_nonfinite_tolerated 1 (by norm_num)
  refine ⟨by norm_num, h.1, h.2.1, h.2.2.1 1, by norm_num [RADIUS], ?_, ?_⟩
  · norm_num [RADIUS]
  · exact h.2.2.2 (1/2) (by norm_num) (by norm_num [RADIUS])
